import Mathlib

/-!
Verification of the PreenCut asynchronous media-processing pipeline.

This file shallowly embeds the parts of the source code that the checked
claims are about:

* `normalize_relevancy_score` from `web/gradio_ui.py`;
* the result-store reaper `_cleanup_results` from `modules/processing_queue.py`;
* the coordinator progress/error updates of `_process_queue` and `add_task`
  from `modules/processing_queue.py`;
* `GPUWorker.average_time`, `get_best_available_gpu` and
  `transcribe_multiple_files` from `services/whisper_gpu_load_balancer.py`;
* `segment_video`, `_validate_segments`, `_parse_and_validate_response`,
  `_create_default_segments`, `_find_relevant_segments_with_enhanced_llm`
  and `_merge_and_extend_enhanced_segments` from `modules/llm_processor.py`.

Machine floats are modelled as rationals; Python `round(x, 1)` (half-even)
is modelled exactly on rationals by `round1`.  External services (the LLM
generation endpoint, the speech engine) are opaque collaborators, so code
paths that consume their output are embedded as functions of that output.
-/

/-! ### Generic helpers: Python truncation and stable sorting -/

/-- Python `int(x)` on a float: truncation toward zero, modelled on `ℚ`. -/
def pyTrunc (q : ℚ) : ℤ :=
  if 0 ≤ q then ⌊q⌋ else -⌊-q⌋

/-- One insertion step of a stable (Python-style) ascending sort: the new
element is placed before the first list element that is not strictly below
it, so elements comparing equal keep their original relative order. -/
def pyInsert (lt : α → α → Bool) (x : α) : List α → List α
  | [] => [x]
  | y :: l => if lt y x then y :: pyInsert lt x l else x :: y :: l

/-- Stable insertion sort.  Python `list.sort` / `sorted` is a stable sort,
and a stable sort by a total preorder has a unique result, so this models
`sorted`/`sort` faithfully whenever `lt` is the strict part of the key
order used in the source. -/
def pySort (lt : α → α → Bool) : List α → List α
  | [] => []
  | x :: l => pyInsert lt x (pySort lt l)

/-! ### Python `round(x, 1)` -/

/-- Round a rational to the nearest integer, ties to even: the rounding mode
of Python 3 `round`. -/
def rhe (x : ℚ) : ℤ :=
  if x - ⌊x⌋ < 1/2 then ⌊x⌋
  else if 1/2 < x - ⌊x⌋ then ⌊x⌋ + 1
  else if Even ⌊x⌋ then ⌊x⌋ else ⌊x⌋ + 1

/-- Python `round(x, 1)`: round to one decimal digit, ties to even.  (Python
rounds the binary double nearest to `x`; on the one-decimal values handled
in this development the two agree.) -/
def round1 (x : ℚ) : ℚ :=
  (rhe (10 * x) : ℚ) / 10

/-! ### `normalize_relevancy_score` (web/gradio_ui.py)

The source takes an arbitrary value and first attempts `float(score)`; the
claims quantify over finite numeric inputs, so the embedding takes a
rational directly (the `None`/unparseable branches returning `5.0` are not
reachable for numeric input). -/

/-- Model of `normalize_relevancy_score` from `web/gradio_ui.py`, on numeric input. -/
def normalize_relevancy_score (score : ℚ) : ℚ :=
  if score = 0 then 1
  else if 1/100 ≤ score ∧ score ≤ 99/100 then round1 (score * 9 + 1)
  else if score = 1 then 10
  else if 101/100 ≤ score ∧ score ≤ 10 then round1 score
  else if 1001/100 ≤ score ∧ score ≤ 100 then round1 (score / 100 * 9 + 1)
  else if score < 0 then 1
  else 10

/-! ### Result-store reaper (`ProcessingQueue._cleanup_results`)

The store is the `self.results` dict: an insertion-ordered association list
from task id to entry.  One reaper pass is embedded as a pure function of
the store contents, the TTL, the cap and the current time. -/

/-- One entry of `self.results`, restricted to the fields the reaper reads.
`status` is carried to show that eviction does not depend on it. -/
structure TaskEntry where
  timestamp : ℚ
  lastAccessed : Option ℚ
  status : String

/-- The access time used by the reaper:
`result.get("last_accessed", result["timestamp"])`. -/
def accessTime (e : TaskEntry) : ℚ :=
  e.lastAccessed.getD e.timestamp

/-- The key order of `sorted(self.results.items(), key=...)`: ascending by
access time (stable). -/
def entryLt (a b : ℕ × TaskEntry) : Bool :=
  decide (accessTime a.2 < accessTime b.2)

/-- The `sorted_results` list computed once at the top of the reaper body,
before any removal. -/
def sortedResults (store : List (ℕ × TaskEntry)) : List (ℕ × TaskEntry) :=
  pySort entryLt store

/-- The store after the TTL rule: every entry whose age since access time
exceeds the TTL is popped; dict order of the survivors is unchanged. -/
def afterTTL (store : List (ℕ × TaskEntry)) (ttl now : ℚ) : List (ℕ × TaskEntry) :=
  store.filter (fun p => ! decide (now - accessTime p.2 > ttl))

/-- The keys popped by the cap rule: the first `len(results) - max_results`
entries of the pre-cleanup `sorted_results` list (some of which the TTL rule
may already have removed, making those pops no-ops). -/
def capVictims (store : List (ℕ × TaskEntry)) (ttl : ℚ) (cap : ℕ) (now : ℚ) : List ℕ :=
  if (afterTTL store ttl now).length > cap then
    ((sortedResults store).take ((afterTTL store ttl now).length - cap)).map Prod.fst
  else []

/-- One pass of the `_cleanup_results` loop body. -/
def cleanupOnce (store : List (ℕ × TaskEntry)) (ttl : ℚ) (cap : ℕ) (now : ℚ) :
    List (ℕ × TaskEntry) :=
  (afterTTL store ttl now).filter (fun p => ! decide (p.1 ∈ capVictims store ttl cap now))

/-- Modelled from the claim wording (for comparison with the code): the keys
the cap rule is claimed to remove, namely the oldest-by-access entries of the
store that remains after the TTL removals, beyond the cap. -/
def specCapVictims (store : List (ℕ × TaskEntry)) (ttl : ℚ) (cap : ℕ) (now : ℚ) : List ℕ :=
  if (afterTTL store ttl now).length > cap then
    ((pySort entryLt (afterTTL store ttl now)).take
      ((afterTTL store ttl now).length - cap)).map Prod.fst
  else []

/-- The removal predicate asserted by the claim: an entry is removed iff it
is expired, or the post-TTL count exceeds the cap and the entry is among the
oldest survivors beyond the cap. -/
def claimReaperRemoves (store : List (ℕ × TaskEntry)) (ttl : ℚ) (cap : ℕ) (now : ℚ)
    (id : ℕ) : Prop :=
  (∃ e, (id, e) ∈ store ∧ now - accessTime e > ttl) ∨
    ((afterTTL store ttl now).length > cap ∧ id ∈ specCapVictims store ttl cap now)

/-! ### GPU worker pool (`services/whisper_gpu_load_balancer.py`) -/

/-- The `GPUWorker` dataclass. -/
structure GPUWorker where
  gpu_id : ℕ
  device_name : String
  is_busy : Bool
  current_task : Option String
  last_used : ℚ
  total_jobs : ℕ
  total_time : ℚ

/-- The `average_time` property: `total_time / total_jobs` if any job has
run, else `0.0`. -/
def average_time (w : GPUWorker) : ℚ :=
  if 0 < w.total_jobs then w.total_time / w.total_jobs else 0

/-- Python `min(l, key=f)` on a nonempty list `h :: t`: the first element
attaining the minimal key. -/
def pyMinBy (key : α → ℚ) (h : α) (t : List α) : α :=
  t.foldl (fun best p => if key p < key best then p else best) h

/-- Model of `get_best_available_gpu`: filter out busy workers; `None` if none left,
else the id of the non-busy worker with the least `average_time`.  The
`workers` association list models the insertion-ordered `self.workers`
dict. -/
def get_best_available_gpu (workers : List (ℕ × GPUWorker)) : Option ℕ :=
  match workers.filter (fun p => ! p.2.is_busy) with
  | [] => none
  | h :: t => some (pyMinBy (fun p => average_time p.2) h t).1

/-- One per-file outcome of `transcribe_multiple_files`: either the payload
returned by `future.result()` or the error record appended when the future
raised. -/
inductive PyTranscription (α : Type) where
  | success (r : α)
  | errorRec (error : String) (audio_path : String)
deriving DecidableEq

/-- Model of `transcribe_multiple_files`.  The concurrent fan-out is modelled by the
per-path outcome function `outcome` (what `future.result()` for that path
returns or raises); the code collects results by walking the `futures` list
in submission order, which is the input order of `audio_files`. -/
def transcribe_multiple_files (outcome : String → Except String α)
    (audio_files : List String) : List (PyTranscription α) :=
  audio_files.map (fun p =>
    match outcome p with
    | .ok r => .success r
    | .error e => .errorRec e p)

/-- The positional correspondence asserted by the claim: the result standing
at a path position is the success payload of that path itself or the error
record of that path itself. -/
def resultMatches (outcome : String → Except String α) (p : String)
    (r : PyTranscription α) : Prop :=
  match outcome p with
  | .ok v => r = .success v
  | .error e => r = .errorRec e p

/-! ### JSON values (`json.loads` output) -/

/-- A parsed JSON value as produced by `json.loads`. -/
inductive JValue where
  | jnull
  | jbool (b : Bool)
  | jnum (q : ℚ)
  | jstr (s : String)
  | jarr (l : List JValue)
  | jobj (fields : List (String × JValue))

/-- Dictionary lookup on a parsed JSON object.  `json.loads` yields unique
keys (a later duplicate overwrites an earlier one), so first-match lookup on
the association list is faithful. -/
def jLookup (fs : List (String × JValue)) (k : String) : Option JValue :=
  (fs.find? (fun p => p.1 == k)).map (fun p => p.2)

mutual

/-- Python `str()` of a parsed JSON value.  The exact rendered text is a
representation detail no claim depends on; only that it is some string. -/
def jvRepr : JValue → String
  | .jnull => "None"
  | .jbool b => if b then "True" else "False"
  | .jnum q => toString q.num ++ "/" ++ toString q.den
  | .jstr s => s
  | .jarr l => "[" ++ jvReprList l ++ "]"
  | .jobj fs => "\x7b" ++ jvReprFields fs ++ "\x7d"

/-- Comma-separated rendering of a list of JSON values. -/
def jvReprList : List JValue → String
  | [] => ""
  | [x] => jvRepr x
  | x :: y :: xs => jvRepr x ++ ", " ++ jvReprList (y :: xs)

/-- Comma-separated rendering of the fields of a JSON object. -/
def jvReprFields : List (String × JValue) → String
  | [] => ""
  | [p] => p.1 ++ ": " ++ jvRepr p.2
  | p :: q :: fs => p.1 ++ ": " ++ jvRepr p.2 ++ ", " ++ jvReprFields (q :: fs)

end

/-- Python truthiness of a parsed JSON value. -/
def jvTruthy : JValue → Bool
  | .jnull => false
  | .jbool b => b
  | .jnum q => decide (q ≠ 0)
  | .jstr s => decide (s ≠ "")
  | .jarr l => ! l.isEmpty
  | .jobj fs => ! fs.isEmpty

/-- Value of a run of decimal digit characters. -/
def digitsVal (cs : List Char) : ℕ :=
  cs.foldl (fun a c => a * 10 + (c.toNat - 48)) 0

/-- Python `float(s)` on a string, modelled for the sign/decimal forms
(`"3"`, `"-3.5"`, `".5"`, `"5."`, surrounding whitespace).  Exponent forms,
`inf`/`nan` and digit underscores are outside the model; no claim depends
on them. -/
def pyFloatOfString (s : String) : Option ℚ :=
  let cs := s.trim.toList
  let signAndRest : ℚ × List Char :=
    match cs with
    | '-' :: r => (-1, r)
    | '+' :: r => (1, r)
    | r => (1, r)
  let sign := signAndRest.1
  let intPart := signAndRest.2.takeWhile Char.isDigit
  let rest := signAndRest.2.dropWhile Char.isDigit
  match rest with
  | [] => if intPart.isEmpty then none else some (sign * digitsVal intPart)
  | '.' :: frac =>
    if frac.all Char.isDigit ∧ ¬(intPart.isEmpty ∧ frac.isEmpty) then
      some (sign * ((digitsVal intPart : ℚ) + (digitsVal frac : ℚ) / (10 : ℚ) ^ frac.length))
    else none
  | _ => none

/-- Python `float(x)` on a parsed JSON value: numbers pass through, booleans
coerce to 0/1, numeric strings are parsed, everything else raises
(`none`). -/
def pyFloat : JValue → Option ℚ
  | .jnum q => some q
  | .jbool b => some (if b then 1 else 0)
  | .jstr s => pyFloatOfString s
  | _ => none

/-! ### `segment_video` and its parsing stages (`modules/llm_processor.py`)

The LLM endpoint is an external collaborator, so `segment_video` is embedded
as a function of the outcome of its two generation calls.  A returned
response text is represented by what the three `json.loads` attempts of the
source extract from it: the parse of the raw text, the parse of the
think-tag/code-fence-stripped text, and the parse of the first-`[`-to-
last-`]` substring (consulted only when the stripped parse fails). -/

/-- The observable content of one generation-call response text. -/
structure RespText where
  raw : Option JValue
  cleaned : Option JValue
  extracted : Option JValue

/-- A validated segment record as built by the validators of
`llm_processor.py`.  The Python dict key `end` is spelled `stop` because
`end` is a Lean keyword. -/
structure Seg where
  start : ℚ
  stop : ℚ
  summary : String
  tags : List JValue

/-- One step of `_validate_segments` (the validator used when the raw
response parses directly as a JSON array): translation of summary and tags
through `_ensure_vietnamese` is the externally-supplied `tr`; any in-branch
exception (non-string summary or tag, unconvertible times) drops just this
segment. -/
def validateOne (tr : String → String) (i : ℕ) (v : JValue) : Option Seg :=
  match v with
  | .jobj fs =>
    match jLookup fs "start", jLookup fs "end" with
    | some sv, some ev =>
      let summaryV := (jLookup fs "summary").getD (.jstr ("Phân đoạn " ++ toString (i + 1)))
      match summaryV with
      | .jstr sumS =>
        let tagsV := (jLookup fs "tags").getD (.jarr [.jstr "phân_đoạn"])
        let tags? : Option (List JValue) :=
          match tagsV with
          | .jarr l =>
            if l.all (fun t => match t with | .jstr _ => true | _ => false) then
              some (l.map (fun t => match t with | .jstr s => .jstr (tr s) | _ => t))
            else none
          | .jstr s => some [.jstr (tr s)]
          | _ => some [.jstr "phân_đoạn"]
        match tags? with
        | some tags =>
          match pyFloat sv, pyFloat ev with
          | some s, some e => if s ≥ e then none else some ⟨s, e, tr sumS, tags⟩
          | _, _ => none
        | none => none
      | _ => none
    | _, _ => none
  | _ => none

/-- Model of `_validate_segments`: keep the segments whose step succeeds. -/
def validate_segments (tr : String → String) (segs : List JValue) : List Seg :=
  (segs.enum.map (fun p => validateOne tr p.1 p.2)).reduceOption

/-- One step of the looser per-segment validation inside
`_parse_and_validate_response`: missing summary/tags get defaults, non-string
summaries are coerced with `str()`, non-list tags become a one-element
string list (or the default when falsy), list tags are kept as-is. -/
def validateLooseOne (i : ℕ) (v : JValue) : Option Seg :=
  match v with
  | .jobj fs =>
    match jLookup fs "start", jLookup fs "end" with
    | some sv, some ev =>
      match pyFloat sv, pyFloat ev with
      | some s, some e =>
        if s ≥ e then none
        else
          let summaryV := (jLookup fs "summary").getD (.jstr ("Phân đoạn " ++ toString (i + 1)))
          let sumS := match summaryV with
            | .jstr str => str
            | other => jvRepr other
          let tagsV := (jLookup fs "tags").getD (.jarr [.jstr "phân_đoạn"])
          let tags := match tagsV with
            | .jarr l => l
            | other => if jvTruthy other then [.jstr (jvRepr other)] else [.jstr "phân_đoạn"]
          some ⟨s, e, sumS, tags⟩
      | _, _ => none
    | _, _ => none
  | _ => none

/-- The candidate-array extraction for an object-shaped response: search the
known array-valued fields in order, else the first array-valued field in
dict order, else wrap the object as a one-element array. -/
def objExtract (fs : List (String × JValue)) : List JValue :=
  let known := ["segments", "results", "items", "data"]
  match known.findSome? (fun k =>
      match jLookup fs k with
      | some (.jarr l) => some l
      | _ => none) with
  | some l => l
  | none =>
    match fs.findSome? (fun p =>
        match p.2 with
        | .jarr l => some l
        | _ => none) with
    | some l => l
    | none => [.jobj fs]

/-- Model of `_parse_and_validate_response`: locate a candidate array in the cleaned
text (or, if the cleaned text is not JSON, in the bracket-extracted
substring), then validate each entry; `none` models every `return None`
path, and a stage succeeds only when at least one segment survives. -/
def parse_and_validate_response (resp : RespText) : Option (List Seg) :=
  let cands : Option (List JValue) :=
    match resp.cleaned with
    | some (.jarr l) => some l
    | some (.jobj fs) => some (objExtract fs)
    | some _ => none
    | none =>
      match resp.extracted with
      | some (.jarr l) => some l
      | some _ => none
      | none => none
  match cands with
  | none => none
  | some l =>
    if l.isEmpty then none
    else
      let valid := ((l.enum.map (fun p => validateLooseOne p.1 p.2)).reduceOption)
      if valid.isEmpty then none else some valid

/-- The total duration detected by `_create_default_segments`:
`sorted(set(times))[-1]` when any timestamp was found in the subtitle text,
else 300 seconds. -/
def defaultTotalDuration (times : List ℚ) : ℚ :=
  ((pySort (fun a b => decide (a < b)) times.dedup).getLast?).getD 300

/-- Model of `_create_default_segments` downstream of its timestamp scan: `times` is
the list of seconds values the regular-expression scan extracted from the
subtitle text (empty when the text contains no parseable timestamp). -/
def create_default_segments (times : List ℚ) : List Seg :=
  let total := defaultTotalDuration times
  let d := total / 5
  (List.range 5).map (fun i =>
    ⟨round1 (i * d), round1 ((i + 1) * d),
     "Phân đoạn video " ++ toString (i + 1),
     [.jstr "phân_đoạn", .jstr ("phần_" ++ toString (i + 1))]⟩)

/-- The fallback half of `segment_video`: the schema-free retry, then the
deterministic default segmentation. -/
def segmentVideoFallback (call2 : Except String RespText) (times : List ℚ) : List Seg :=
  match call2 with
  | .ok t =>
    match parse_and_validate_response t with
    | some segs => segs
    | none => create_default_segments times
  | .error _ => create_default_segments times

/-- Model of `segment_video` as a function of its two generation-call outcomes
(`call1` with the JSON schema, `call2` without), the
`_ensure_vietnamese` translation `tr`, and the timestamps `times` the
default-segmentation scan finds in the subtitle text.  When the raw
structured response parses directly as a JSON array the validated array is
returned immediately, with no emptiness check. -/
def segment_video (call1 call2 : Except String RespText) (tr : String → String)
    (times : List ℚ) : List Seg :=
  match call1 with
  | .ok t =>
    match t.raw with
    | some (.jarr l) => validate_segments tr l
    | _ =>
      match parse_and_validate_response t with
      | some segs => segs
      | none => segmentVideoFallback call2 times
  | .error _ => segmentVideoFallback call2 times

/-! ### Enhanced segmentation
(`_find_relevant_segments_with_enhanced_llm` and
`_merge_and_extend_enhanced_segments`) -/

/-- An enhanced segment dict as built by the enhanced LLM path.  The Python
key `end` is spelled `stop`. -/
structure ESeg where
  start : ℚ
  stop : ℚ
  summary : String
  detailed_summary : String
  tags : List String
  word_count : ℤ
  relevance_score : ℚ
  engagement_score : ℚ
  viral_potential : String
  content_type : String
  hook_text : String
  composite_score : ℚ

/-- One sentence record of `sentence_segments`; the merge step reads only
the end time. -/
structure SentSeg where
  text : String
  start : ℚ
  stop : ℚ
  word_count : ℕ

/-- The `viral_hierarchy` ranking with default 2 for unknown labels. -/
def viralRank (s : String) : ℕ :=
  if s = "low" then 1 else if s = "medium" then 2 else if s = "high" then 3 else 2

/-- Merging one later segment into the running accumulator: union of the end
time only (the accumulator start is left unchanged), concatenated texts,
deduplicated tag union (`list(set(...))`; Python set order is unspecified),
summed word counts, and the maximum of each score field. -/
def mergeInto (cur seg : ESeg) : ESeg :=
  { cur with
    stop := max cur.stop seg.stop
    summary := cur.summary ++ "; " ++ seg.summary
    detailed_summary := cur.detailed_summary ++ " " ++ seg.detailed_summary
    tags := (cur.tags ++ seg.tags).dedup
    word_count := cur.word_count + seg.word_count
    relevance_score := max cur.relevance_score seg.relevance_score
    engagement_score := max cur.engagement_score seg.engagement_score
    composite_score := max cur.composite_score seg.composite_score
    viral_potential :=
      if viralRank cur.viral_potential < viralRank seg.viral_potential then
        seg.viral_potential
      else cur.viral_potential }

/-- The strict part of the sort key
`(-composite_score, start)` used before the merge walk. -/
def eSegLt (a b : ESeg) : Bool :=
  decide (b.composite_score < a.composite_score ∨
    (a.composite_score = b.composite_score ∧ a.start < b.start))

/-- The merge walk over the sorted candidates: a segment whose start is
within 3 seconds of the accumulator end is merged in, otherwise the
accumulator is emitted and the segment starts a new one. -/
def mergeWalk (cur : ESeg) : List ESeg → List ESeg
  | [] => [cur]
  | s :: rest =>
    if s.start ≤ cur.stop + 3 then mergeWalk (mergeInto cur s) rest
    else cur :: mergeWalk s rest

/-- The sort-then-walk half of `_merge_and_extend_enhanced_segments`. -/
def mergePhase (segs : List ESeg) : List ESeg :=
  match pySort eSegLt segs with
  | [] => []
  | h :: t => mergeWalk h t

/-- Extension of one too-short merged segment: 5 seconds earlier (clamped at
0) and 10 seconds later (clamped at the last sentence end when sentences
exist).  A zero-duration segment makes `duration_increase` divide by zero,
aborting the whole call (`none`). -/
def extendOne (maxTime : Option ℚ) (s : ESeg) : Option ESeg :=
  let duration := s.stop - s.start
  if duration < 20 then
    if duration = 0 then none
    else
      let es := max 0 (s.start - 5)
      let ee :=
        match maxTime with
        | some m => min (s.stop + 10) m
        | none => s.stop + 10
      some { s with
        start := es
        stop := ee
        word_count := pyTrunc ((s.word_count : ℚ) * ((ee - es) / duration)) }
  else some s

/-- Value of the Python maximum of the sentence end times, when any
sentences exist. -/
def maxEndOf : List SentSeg → Option ℚ
  | [] => none
  | h :: t => some (t.foldl (fun m s => max m s.stop) h.stop)

/-- The extension loop over all merged segments, aborting (`none`) at the
first division by zero. -/
def extendAll (m : Option ℚ) : List ESeg → Option (List ESeg)
  | [] => some []
  | s :: t =>
    match extendOne m s, extendAll m t with
    | some s2, some t2 => some (s2 :: t2)
    | _, _ => none

/-- Model of `_merge_and_extend_enhanced_segments`: sort by descending composite
score (ties by start), walk-merge, extend short survivors, and sort the
final list by descending composite score.  `none` models the
division-by-zero abort in the extension loop. -/
def merge_and_extend_enhanced_segments (segs : List ESeg) (sentences : List SentSeg) :
    Option (List ESeg) :=
  if segs.isEmpty then some []
  else
    match extendAll (maxEndOf sentences) (mergePhase segs) with
    | none => none
    | some ext => some (pySort (fun a b => decide (b.composite_score < a.composite_score)) ext)

/-- One segment dict parsed from the enhanced LLM response, as read through
`seg_data.get`/`seg_data[...]`.  For a numeric-or-absent field,
`none` models a missing key, `some none` a present value on which the
numeric conversion raises, and `some (some x)` a numeric value. -/
structure SegData where
  start_time : Option (Option ℚ)
  end_time : Option (Option ℚ)
  relevance_score : Option (Option ℚ)
  engagement_score : Option (Option ℚ)
  summary : Option String
  detailed_summary : Option String
  tags : List String
  word_count : Option (Option ℤ)
  viral_potential : Option String
  content_type : Option String
  hook_text : Option String

/-- Processing of one parsed segment dict by the enhanced conversion loop:
outer `none` is an uncaught exception (missing or unconvertible
`start_time`/`end_time`, non-numeric `engagement_score` or `word_count`
inside the kept branch) which aborts the whole response; `some none` is a
silently skipped segment (missing, unconvertible, out-of-range or low
`relevance_score`); `some (some e)` is a kept enhanced segment. -/
def buildOne (d : SegData) : Option (Option ESeg) :=
  match d.relevance_score with
  | none => some none
  | some none => some none
  | some (some r) =>
    if ¬(1 ≤ r ∧ r ≤ 10) then some none
    else if r < 5 then some none
    else
      match d.start_time, d.end_time with
      | some (some s), some (some e) =>
        match d.engagement_score with
        | some none => none
        | eng =>
          let g : ℚ := match eng with | some (some q) => q | _ => 5
          match d.word_count with
          | some none => none
          | wc =>
            some (some
              { start := s
                stop := e
                summary := d.summary.getD "Phân đoạn liên quan"
                detailed_summary := d.detailed_summary.getD (d.summary.getD "")
                tags := d.tags
                word_count := match wc with | some (some n) => n | _ => 0
                relevance_score := r
                engagement_score := g
                viral_potential := d.viral_potential.getD "medium"
                content_type := d.content_type.getD "thông tin"
                hook_text := d.hook_text.getD "Bạn có biết..."
                composite_score := r * (6/10) + g * (4/10) })
      | _, _ => none

/-- The enhanced conversion loop over all parsed segment dicts: `none` when
any kept segment raises. -/
def buildEnhanced : List SegData → Option (List ESeg)
  | [] => some []
  | d :: rest =>
    match buildOne d with
    | none => none
    | some none => buildEnhanced rest
    | some (some e) => (buildEnhanced rest).map (fun l => e :: l)

/-- Model of `_find_relevant_segments_with_enhanced_llm` as a function of the
generation-call outcome.  `Except.error` is a raised call; `Except.ok none`
is a response whose JSON parse fails (or whose shape makes the loop raise);
`Except.ok (some segs)` is a parsed response whose `relevant_segments`
field holds `segs` (defaulting to `[]` when absent).  Any exception inside
the conversion or merge is caught by the enclosing handler and yields
`[]`. -/
def find_relevant_segments_with_enhanced_llm
    (call : Except String (Option (List SegData))) (sentences : List SentSeg) :
    List ESeg :=
  match call with
  | .error _ => []
  | .ok none => []
  | .ok (some segs) =>
    if segs.isEmpty then []
    else
      match buildEnhanced segs with
      | none => []
      | some enh =>
        match merge_and_extend_enhanced_segments enh sentences with
        | none => []
        | some merged => merged

/-! ### Coordinator progress and failure handling
(`ProcessingQueue.add_task` / `_process_queue`) -/

/-- The progress fractions `_process_queue` publishes while handling file
`i` of `K`: the file base fraction, the audio-extraction update (video
files only), the speech-recognition update, the alignment update (when
alignment is enabled), the segmentation update, and the file-completed
update. -/
def fileStageUpdates (K i : ℕ) (isVideo align : Bool) : List ℚ :=
  let base : ℚ := i / K
  let w : ℚ := 1 / K
  [base] ++ (if isVideo then [base + w * (1/10)] else [])
    ++ [base + w * (2/10)]
    ++ (if align then [base + w * (6/10)] else [])
    ++ [base + w * (8/10)]
    ++ [base + w]

/-- The per-file updates for all files, `isVideo` flag per file. -/
def filesUpdates (K : ℕ) : ℕ → List Bool → Bool → List ℚ
  | _, [], _ => []
  | i, v :: rest, align => fileStageUpdates K i v align ++ filesUpdates K (i + 1) rest align

/-- The complete sequence of progress values published for one successful
task: 0.0 at enqueue (`add_task`), 0.01 at dequeue, the per-file updates,
and 1.0 at completion. -/
def taskProgressTrace (files : List Bool) (align : Bool) : List ℚ :=
  0 :: 1/100 :: (filesUpdates files.length 0 files align ++ [1])

/-- The progress values published when the task raises after `n` of the
per-file updates: the prefix of the successful trace, then the 0.0 written
by the error handler. -/
def taskFailureTrace (files : List Bool) (align : Bool) (n : ℕ) : List ℚ :=
  (0 :: 1/100 :: filesUpdates files.length 0 files align).take (n + 2) ++ [0]

/-- One task entry of `self.results` as mutated by the coordinator; the
per-file result payload is opaque. -/
structure TaskRecord (α : Type) where
  status : String
  error : Option String
  progress : ℚ
  progress_desc : String
  result : Option α

/-- The success epilogue of `_process_queue`. -/
def completeTask (r : TaskRecord α) (payload : α) : TaskRecord α :=
  { r with
    status := "completed"
    result := some payload
    progress := 1
    progress_desc := "Xử lý hoàn tất" }

/-- The `except` handler of `_process_queue`: the caught exception text
`str(e)` is written verbatim into the `error` field. -/
def failTask (r : TaskRecord α) (exnMsg : String) : TaskRecord α :=
  { r with
    status := "error"
    error := some exnMsg
    progress := 0
    progress_desc := "Lỗi: " ++ exnMsg }

/-- The end of one `_process_queue` iteration: completion on success, the
error handler on a raised exception. -/
def finishTask (r : TaskRecord α) (outcome : Except String α) : TaskRecord α :=
  match outcome with
  | .ok payload => completeTask r payload
  | .error m => failTask r m

/-! ### Concrete example inputs used by counterexamples and witnesses -/

/-- An enhanced segment with the given times and scores and fixed texts. -/
def mkESeg (s e rel eng comp : ℚ) : ESeg :=
  ⟨s, e, "tóm tắt", "chi tiết", [], 0, rel, eng, "medium", "thông tin", "móc", comp⟩

/-- High-composite candidate spanning 100–110 seconds. -/
def cexC1a : ESeg := mkESeg 100 110 9 9 9

/-- Lower-composite candidate spanning 0–10 seconds, absorbed by the walk. -/
def cexC1b : ESeg := mkESeg 0 10 8 8 8

/-- Candidate spanning 0–10 seconds used by the merge-phase witness. -/
def cexC1c : ESeg := mkESeg 0 10 9 9 9

/-- Candidate spanning 14–40 seconds used by the merge-phase witness. -/
def cexC1d : ESeg := mkESeg 14 40 8 8 8

/-- Parsed enhanced-response segment: relevance 10, engagement 5. -/
def cexC10a : SegData :=
  ⟨some (some 0), some (some 30), some (some 10), some (some 5),
   none, none, [], none, none, none, none⟩

/-- Parsed enhanced-response segment: relevance 5, engagement 10. -/
def cexC10b : SegData :=
  ⟨some (some 0), some (some 30), some (some 5), some (some 10),
   none, none, [], none, none, none, none⟩

/-- Store entry last accessed at time 1 (expired at time 100 with TTL 10). -/
def cexEntry0 : TaskEntry := ⟨1, none, "completed"⟩

/-- Store entry last accessed at time 95 (fresh at time 100 with TTL 10). -/
def cexEntry1 : TaskEntry := ⟨95, none, "completed"⟩

/-- Store entry last accessed at time 96 (fresh at time 100 with TTL 10). -/
def cexEntry2 : TaskEntry := ⟨96, none, "queued"⟩

/-- A three-entry store whose single expired entry is also its oldest. -/
def cexStore : List (ℕ × TaskEntry) :=
  [(0, cexEntry0), (1, cexEntry1), (2, cexEntry2)]

/-- A busy worker. -/
def exWorker0 : GPUWorker := ⟨0, "cuda:0", true, some "t.wav", 0, 1, 5⟩

/-- A free worker with average time 2. -/
def exWorker1 : GPUWorker := ⟨1, "cuda:1", false, none, 0, 2, 4⟩

/-- A free worker with average time 1. -/
def exWorker2 : GPUWorker := ⟨2, "cuda:2", false, none, 0, 2, 2⟩

/-- A worker table with one busy worker and two free ones. -/
def exWorkers : List (ℕ × GPUWorker) :=
  [(0, exWorker0), (1, exWorker1), (2, exWorker2)]

/-- A per-path outcome where the first path fails and others succeed. -/
def exOutcome : String → Except String ℕ :=
  fun p => if p = "a.wav" then .error "cuda out of memory" else .ok 7

/-- Two audio paths submitted together. -/
def exFiles : List String := ["a.wav", "b.wav"]

/-- The enhanced segment the conversion loop builds from `cexC10a`. -/
def cexE10a : ESeg :=
  ⟨0, 30, "Phân đoạn liên quan", "", [], 0, 10, 5, "medium", "thông tin",
   "Bạn có biết...", 8⟩

/-- The enhanced segment the conversion loop builds from `cexC10b`. -/
def cexE10b : ESeg :=
  ⟨0, 30, "Phân đoạn liên quan", "", [], 0, 5, 10, "medium", "thông tin",
   "Bạn có biết...", 7⟩

/-! ### Helper lemmas: stable sort, fold minimum, association lists -/

theorem pyInsert_perm (lt : α → α → Bool) (x : α) :
    ∀ l : List α, List.Perm (pyInsert lt x l) (x :: l)
  | [] => by simp [pyInsert]
  | y :: t => by
    by_cases h : lt y x = true
    · have ih := pyInsert_perm lt x t
      simp only [pyInsert, if_pos h]
      exact (ih.cons y).trans (List.Perm.swap x y t)
    · simp only [pyInsert, if_neg h]
      exact List.Perm.refl _

theorem pySort_perm (lt : α → α → Bool) : ∀ l : List α, List.Perm (pySort lt l) l
  | [] => by simp [pySort]
  | x :: l => by
    have h1 := pyInsert_perm lt x (pySort lt l)
    have h2 := (pySort_perm lt l).cons x
    simpa [pySort] using h1.trans h2

theorem pySort_mem (lt : α → α → Bool) (l : List α) (a : α) :
    a ∈ pySort lt l ↔ a ∈ l :=
  (pySort_perm lt l).mem_iff

theorem pyInsert_le_chain (x : ℚ) :
    ∀ l : List ℚ, l.Chain' (· ≤ ·) →
      (pyInsert (fun a b => decide (a < b)) x l).Chain' (· ≤ ·) ∧
      ((pyInsert (fun a b => decide (a < b)) x l).head? = some x ∨
        (pyInsert (fun a b => decide (a < b)) x l).head? = l.head?)
  | [], _ => by simp [pyInsert]
  | y :: t, h => by
    have ht : t.Chain' (· ≤ ·) := h.tail
    by_cases hyx : y < x
    · have ih := pyInsert_le_chain x t ht
      simp only [pyInsert, hyx, decide_True, if_true]
      constructor
      · refine List.chain'_cons'.2 ⟨?_, ih.1⟩
        intro z hz
        rcases ih.2 with hh | hh
        · rw [hh] at hz
          cases hz
          exact le_of_lt hyx
        · rw [hh] at hz
          exact (List.chain'_cons'.1 h).1 z hz
      · right; rfl
    · simp only [pyInsert, hyx, decide_False, if_false]
      constructor
      · refine List.chain'_cons'.2 ⟨?_, h⟩
        intro z hz
        cases hz
        exact le_of_not_lt hyx
      · left; rfl

theorem pySort_le_chain : ∀ l : List ℚ,
    (pySort (fun a b => decide (a < b)) l).Chain' (· ≤ ·)
  | [] => by simp [pySort]
  | x :: l => (pyInsert_le_chain x _ (pySort_le_chain l)).1

theorem chain_le_getLast :
    ∀ (l : List ℚ) (m x : ℚ), l.Chain' (· ≤ ·) → l.getLast? = some m → x ∈ l → x ≤ m
  | [], _, _, _, hl, _ => by simp at hl
  | [a], m, x, _, hl, hx => by
    simp only [List.getLast?_singleton, Option.some_inj] at hl
    simp only [List.mem_singleton] at hx
    rw [hx, ← hl]
  | a :: b :: t, m, x, hc, hl, hx => by
    have hc2 : (b :: t).Chain' (· ≤ ·) := hc.tail
    have hab : a ≤ b := (List.chain'_cons.1 hc).1
    have hl2 : (b :: t).getLast? = some m := by
      rwa [List.getLast?_cons_cons] at hl
    rcases List.mem_cons.1 hx with rfl | hx2
    · exact le_trans hab
        (chain_le_getLast (b :: t) m b hc2 hl2 (List.mem_cons_self b t))
    · exact chain_le_getLast (b :: t) m x hc2 hl2 hx2

theorem pyMinBy_mem (key : α → ℚ) :
    ∀ (t : List α) (h : α), pyMinBy key h t ∈ h :: t
  | [], h => by simp [pyMinBy]
  | p :: t, h => by
    by_cases hc : key p < key h
    · have ih := pyMinBy_mem key t p
      simp only [pyMinBy, List.foldl_cons, if_pos hc]
      simp only [pyMinBy] at ih
      exact List.mem_cons_of_mem _ ih
    · have ih := pyMinBy_mem key t h
      simp only [pyMinBy, List.foldl_cons, if_neg hc]
      simp only [pyMinBy] at ih
      rcases List.mem_cons.1 ih with h1 | h1
      · rw [h1]
        exact List.mem_cons_self _ _
      · exact List.mem_cons_of_mem _ (List.mem_cons_of_mem _ h1)

theorem pyMinBy_le (key : α → ℚ) :
    ∀ (t : List α) (h x : α), x ∈ h :: t → key (pyMinBy key h t) ≤ key x
  | [], h, x, hx => by
    simp only [List.mem_singleton] at hx
    rw [hx]
    simp [pyMinBy]
  | p :: t, h, x, hx => by
    by_cases hc : key p < key h
    · have ih := pyMinBy_le key t p
      simp only [pyMinBy, List.foldl_cons, if_pos hc]
      simp only [pyMinBy] at ih
      rcases List.mem_cons.1 hx with rfl | hx2
      · exact le_trans (ih p (List.mem_cons_self _ _)) (le_of_lt hc)
      · rcases List.mem_cons.1 hx2 with rfl | hx3
        · exact ih x (List.mem_cons_self _ _)
        · exact ih x (List.mem_cons_of_mem _ hx3)
    · have ih := pyMinBy_le key t h
      simp only [pyMinBy, List.foldl_cons, if_neg hc]
      simp only [pyMinBy] at ih
      rcases List.mem_cons.1 hx with rfl | hx2
      · exact ih x (List.mem_cons_self _ _)
      · rcases List.mem_cons.1 hx2 with rfl | hx3
        · exact le_trans (ih h (List.mem_cons_self _ _)) (le_of_not_lt hc)
        · exact ih x (List.mem_cons_of_mem _ hx3)

theorem keys_nodup_eq {β : Type} :
    ∀ (l : List (ℕ × β)) (a : ℕ) (b c : β),
      (l.map Prod.fst).Nodup → (a, b) ∈ l → (a, c) ∈ l → b = c
  | [], _, _, _, _, hb, _ => by simp at hb
  | p :: t, a, b, c, hnd, hb, hc => by
    simp only [List.map_cons, List.nodup_cons] at hnd
    rcases List.mem_cons.1 hb with hb2 | hb2 <;> rcases List.mem_cons.1 hc with hc2 | hc2
    · exact (Prod.ext_iff.1 (hb2.trans hc2.symm)).2
    · exfalso
      apply hnd.1
      rw [← hb2]
      exact List.mem_map.2 ⟨(a, c), hc2, rfl⟩
    · exfalso
      apply hnd.1
      rw [← hc2]
      exact List.mem_map.2 ⟨(a, b), hb2, rfl⟩
    · exact keys_nodup_eq t a b c hnd.2 hb2 hc2

theorem extendAll_mem (m : Option ℚ) :
    ∀ (l l2 : List ESeg), extendAll m l = some l2 →
      ∀ y ∈ l2, ∃ x ∈ l, extendOne m x = some y
  | [], l2, h, y, hy => by
    simp only [extendAll, Option.some_inj] at h
    rw [← h] at hy
    simp at hy
  | s :: t, l2, h, y, hy => by
    simp only [extendAll] at h
    cases hs : extendOne m s with
    | none => rw [hs] at h; exact absurd h (by simp)
    | some s2 =>
      cases ht : extendAll m t with
      | none => rw [hs, ht] at h; exact absurd h (by simp)
      | some t2 =>
        rw [hs, ht] at h
        simp only [Option.some_inj] at h
        rw [← h] at hy
        rcases List.mem_cons.1 hy with rfl | hy2
        · exact ⟨s, List.mem_cons_self s t, hs⟩
        · obtain ⟨x, hx, hex⟩ := extendAll_mem m t t2 ht y hy2
          exact ⟨x, List.mem_cons_of_mem s hx, hex⟩

/-! ### Helper lemmas: half-even rounding -/

theorem rhe_intCast (k : ℤ) : rhe (k : ℚ) = k := by
  unfold rhe
  rw [Int.floor_intCast]
  rw [if_pos]
  norm_num

theorem rhe_bounds (x : ℚ) : x - 1/2 ≤ (rhe x : ℚ) ∧ (rhe x : ℚ) ≤ x + 1/2 := by
  have h1 : ((⌊x⌋ : ℤ) : ℚ) ≤ x := Int.floor_le x
  have h2 : x < ⌊x⌋ + 1 := Int.lt_floor_add_one x
  unfold rhe
  split_ifs with ha hb hc
  · constructor <;> push_cast <;> linarith
  · constructor <;> push_cast <;> linarith
  · constructor <;> push_cast <;> linarith
  · constructor <;> push_cast <;> linarith

theorem round1_bounds (x : ℚ) : x - 1/20 ≤ round1 x ∧ round1 x ≤ x + 1/20 := by
  have h := rhe_bounds (10 * x)
  unfold round1
  constructor <;> linarith [h.1, h.2]

theorem round1_tenth (k : ℤ) : round1 ((k : ℚ) / 10) = (k : ℚ) / 10 := by
  unfold round1
  have h : (10 : ℚ) * ((k : ℚ) / 10) = (k : ℚ) := by ring
  rw [h, rhe_intCast]

theorem round1_intCast (k : ℤ) : round1 (k : ℚ) = k := by
  have h : ((k : ℚ)) = ((10 * k : ℤ) : ℚ) / 10 := by push_cast; ring
  rw [h, round1_tenth]

theorem int_ge_of_gt_q (k c : ℤ) (h : ((c : ℚ)) - 1 < (k : ℚ)) : c ≤ k := by
  have h2 : c - 1 < k := by exact_mod_cast (by push_cast; linarith : ((c - 1 : ℤ) : ℚ) < (k : ℚ))
  omega

theorem int_le_of_lt_q (k c : ℤ) (h : (k : ℚ) < (c : ℚ) + 1) : k ≤ c := by
  have h2 : k < c + 1 := by exact_mod_cast (by push_cast; linarith : (k : ℚ) < ((c + 1 : ℤ) : ℚ))
  omega

/-! ### Helper lemmas: the normalization function -/

theorem normalize_out (x : ℚ) :
    normalize_relevancy_score x = 1 ∨
      ∃ k : ℤ, normalize_relevancy_score x = (k : ℚ) / 10 ∧
        11/10 ≤ normalize_relevancy_score x ∧ normalize_relevancy_score x ≤ 10 := by
  unfold normalize_relevancy_score
  split_ifs with h1 h2 h3 h4 h5 h6
  · exact Or.inl rfl
  · right
    obtain ⟨hlo, hhi⟩ := h2
    have hb := round1_bounds (x * 9 + 1)
    refine ⟨rhe (10 * (x * 9 + 1)), rfl, ?_, ?_⟩
    · have hk : (11 : ℤ) ≤ rhe (10 * (x * 9 + 1)) := by
        apply int_ge_of_gt_q
        have : (x * 9 + 1) - 1/20 ≤ (rhe (10 * (x * 9 + 1)) : ℚ) / 10 := hb.1
        push_cast
        linarith
      have hk2 : (11 : ℚ) ≤ (rhe (10 * (x * 9 + 1)) : ℚ) := by exact_mod_cast hk
      show (11 : ℚ)/10 ≤ (rhe (10 * (x * 9 + 1)) : ℚ) / 10
      linarith
    · have hk : rhe (10 * (x * 9 + 1)) ≤ (100 : ℤ) := by
        apply int_le_of_lt_q
        have : (rhe (10 * (x * 9 + 1)) : ℚ) / 10 ≤ (x * 9 + 1) + 1/20 := hb.2
        push_cast
        linarith
      have hk2 : (rhe (10 * (x * 9 + 1)) : ℚ) ≤ 100 := by exact_mod_cast hk
      show (rhe (10 * (x * 9 + 1)) : ℚ) / 10 ≤ 10
      linarith
  · right
    exact ⟨100, by norm_num, by norm_num, by norm_num⟩
  · obtain ⟨hlo, hhi⟩ := h4
    have hb := round1_bounds x
    have hk10 : (10 : ℤ) ≤ rhe (10 * x) := by
      apply int_ge_of_gt_q
      have := hb.1
      push_cast
      unfold round1 at this
      linarith
    have hk100 : rhe (10 * x) ≤ (100 : ℤ) := by
      apply int_le_of_lt_q
      have := hb.2
      push_cast
      unfold round1 at this
      linarith
    by_cases hk : rhe (10 * x) = 10
    · left
      show round1 x = 1
      unfold round1
      rw [hk]
      norm_num
    · right
      have hk11 : (11 : ℤ) ≤ rhe (10 * x) := by omega
      have hk11q : (11 : ℚ) ≤ (rhe (10 * x) : ℚ) := by exact_mod_cast hk11
      have hk100q : (rhe (10 * x) : ℚ) ≤ 100 := by exact_mod_cast hk100
      refine ⟨rhe (10 * x), rfl, ?_, ?_⟩
      · show (11 : ℚ)/10 ≤ (rhe (10 * x) : ℚ) / 10
        linarith
      · show (rhe (10 * x) : ℚ) / 10 ≤ 10
        linarith
  · obtain ⟨hlo, hhi⟩ := h5
    right
    have hb := round1_bounds (x / 100 * 9 + 1)
    have hk19 : (19 : ℤ) ≤ rhe (10 * (x / 100 * 9 + 1)) := by
      apply int_ge_of_gt_q
      have := hb.1
      push_cast
      unfold round1 at this
      linarith
    have hk100 : rhe (10 * (x / 100 * 9 + 1)) ≤ (100 : ℤ) := by
      apply int_le_of_lt_q
      have := hb.2
      push_cast
      unfold round1 at this
      linarith
    have hk19q : (19 : ℚ) ≤ (rhe (10 * (x / 100 * 9 + 1)) : ℚ) := by exact_mod_cast hk19
    have hk100q : (rhe (10 * (x / 100 * 9 + 1)) : ℚ) ≤ 100 := by exact_mod_cast hk100
    refine ⟨rhe (10 * (x / 100 * 9 + 1)), rfl, ?_, ?_⟩
    · show (11 : ℚ)/10 ≤ (rhe (10 * (x / 100 * 9 + 1)) : ℚ) / 10
      linarith
    · show (rhe (10 * (x / 100 * 9 + 1)) : ℚ) / 10 ≤ 10
      linarith
  · exact Or.inl rfl
  · right
    exact ⟨100, by norm_num, by norm_num, by norm_num⟩

theorem normalize_fix (y : ℚ) (k : ℤ) (hy : y = (k : ℚ) / 10)
    (h1 : 11/10 ≤ y) (h2 : y ≤ 10) : normalize_relevancy_score y = y := by
  unfold normalize_relevancy_score
  have c0 : ¬ (y = 0) := by intro h; rw [h] at h1; norm_num at h1
  have ca : ¬ (1/100 ≤ y ∧ y ≤ 99/100) := by rintro ⟨_, hb⟩; linarith
  have cb : ¬ (y = 1) := by intro h; rw [h] at h1; norm_num at h1
  have cc : (101/100 ≤ y ∧ y ≤ 10) := ⟨by linarith, h2⟩
  rw [if_neg c0, if_neg ca, if_neg cb, if_pos cc, hy, round1_tenth]

/-! ### Claim C2 -/

/-- C2, counterexample: relevance-score normalization is not idempotent on
its own output.  At the input 0 the function returns 1.0, and renormalizing
1.0 returns 10.0, so normalize(normalize(0)) differs from normalize(0). -/
theorem c2_normalize_idempotent_counterexample :
    normalize_relevancy_score (normalize_relevancy_score 0) ≠
      normalize_relevancy_score 0 := by
  have h0 : normalize_relevancy_score 0 = 1 := by norm_num [normalize_relevancy_score]
  rw [h0]
  norm_num [normalize_relevancy_score]

/-- C2, amended claim: normalize(0) = 1.0 and normalize(1.0) = 10.0 as
claimed, and normalization is idempotent on its own output at exactly those
inputs whose normalized value is not 1.0; on an input normalizing to 1.0
(such as 0 itself, or any negative value) a second application yields 10.0
instead. -/
theorem c2_normalize_idempotent_amended (x : ℚ)
    (hx : normalize_relevancy_score x ≠ 1) :
    normalize_relevancy_score 0 = 1 ∧ normalize_relevancy_score 1 = 10 ∧
      normalize_relevancy_score (normalize_relevancy_score x) =
        normalize_relevancy_score x := by
  refine ⟨by norm_num [normalize_relevancy_score],
    by norm_num [normalize_relevancy_score], ?_⟩
  rcases normalize_out x with h | ⟨k, hk, h1, h2⟩
  · exact absurd h hx
  · exact normalize_fix _ k hk h1 h2

/-- C2, witness: the amended idempotence theorem applied at the concrete
input 200, which normalizes to 10.0. -/
theorem c2_normalize_idempotent_witness :
    normalize_relevancy_score 200 ≠ 1 ∧
      (normalize_relevancy_score 0 = 1 ∧ normalize_relevancy_score 1 = 10 ∧
        normalize_relevancy_score (normalize_relevancy_score 200) =
          normalize_relevancy_score 200) :=
  ⟨by norm_num [normalize_relevancy_score],
    c2_normalize_idempotent_amended 200 (by norm_num [normalize_relevancy_score])⟩

/-! ### Claim C7 -/

/-- C7: `get_best_available_gpu` returns none exactly when every worker is
busy, and otherwise the id of a non-busy worker whose `average_time`
(total time over total jobs, 0 when no job has run) is minimal among the
non-busy workers. -/
theorem c7_pick_best_available (workers : List (ℕ × GPUWorker)) :
    (get_best_available_gpu workers = none ↔ ∀ p ∈ workers, p.2.is_busy = true) ∧
    (∀ g, get_best_available_gpu workers = some g →
      ∃ w : GPUWorker, (g, w) ∈ workers ∧ w.is_busy = false ∧
        average_time w = (if 0 < w.total_jobs then w.total_time / w.total_jobs else 0) ∧
        ∀ p ∈ workers, p.2.is_busy = false → average_time w ≤ average_time p.2) := by
  cases hf : workers.filter (fun p => ! p.2.is_busy) with
  | nil =>
    constructor
    · constructor
      · intro _ p hp
        by_contra hb
        have hb2 : p.2.is_busy = false := by
          cases h : p.2.is_busy
          · rfl
          · exact absurd h hb
        have hpm : p ∈ workers.filter (fun p => ! p.2.is_busy) :=
          List.mem_filter.2 ⟨hp, by simp [hb2]⟩
        rw [hf] at hpm
        simp at hpm
      · intro _
        simp [get_best_available_gpu, hf]
    · intro g hg
      simp [get_best_available_gpu, hf] at hg
  | cons h t =>
    constructor
    · constructor
      · intro h0
        simp [get_best_available_gpu, hf] at h0
      · intro hall
        exfalso
        have hh : h ∈ workers.filter (fun p => ! p.2.is_busy) := by
          rw [hf]
          exact List.mem_cons_self h t
        have hw : h ∈ workers := (List.mem_filter.1 hh).1
        have hb := (List.mem_filter.1 hh).2
        rw [hall h hw] at hb
        simp at hb
    · intro g hg
      have hg2 : (pyMinBy (fun p => average_time p.2) h t).1 = g := by
        simp [get_best_available_gpu, hf] at hg
        exact hg
      set m := pyMinBy (fun p => average_time p.2) h t with hm
      have hmf : m ∈ workers.filter (fun p => ! p.2.is_busy) := by
        rw [hf, hm]
        exact pyMinBy_mem _ t h
      have hmw : m ∈ workers :=
        (List.mem_filter.1 hmf).1
      have hmb : m.2.is_busy = false := by
        have := (List.mem_filter.1 hmf).2
        simpa using this
      refine ⟨m.2, ?_, hmb, by rw [average_time], ?_⟩
      · rw [← hg2, Prod.mk.eta]
        exact hmw
      · intro p hp hpb
        have hpf : p ∈ workers.filter (fun p => ! p.2.is_busy) :=
          List.mem_filter.2 ⟨hp, by simp [hpb]⟩
        rw [hf] at hpf
        rw [hm]
        have hle := pyMinBy_le (fun p => average_time p.2) t h p hpf
        simpa using hle

/-- C7, witness: in a table with one busy worker and free workers of average
times 2 and 1, the theorem yields the free worker with id 2 and average
time 1. -/
theorem c7_pick_best_available_witness :
    ∃ w : GPUWorker, (2, w) ∈ exWorkers ∧ w.is_busy = false ∧
      average_time w = (if 0 < w.total_jobs then w.total_time / w.total_jobs else 0) ∧
      ∀ p ∈ exWorkers, p.2.is_busy = false → average_time w ≤ average_time p.2 :=
  (c7_pick_best_available exWorkers).2 2 (by
    have h1 : average_time exWorker1 = 2 := by norm_num [average_time, exWorker1]
    have h2 : average_time exWorker2 = 1 := by norm_num [average_time, exWorker2]
    have hfil : exWorkers.filter (fun p => ! p.2.is_busy) =
        [(1, exWorker1), (2, exWorker2)] := rfl
    simp only [get_best_available_gpu, hfil, pyMinBy, List.foldl_cons, List.foldl_nil]
    norm_num [h1, h2])

/-! ### Claim C8 -/

/-- C8: `transcribe_multiple_files` returns one result per input path, and
the result at each index is the success payload or error record of that
same path, independently of the other paths; collection order is the
submission order, so a failing path yields an error record in place while
the other paths still produce their own results. -/
theorem c8_submit_many {α : Type} (outcome : String → Except String α)
    (audio_files : List String) :
    (transcribe_multiple_files outcome audio_files).length = audio_files.length ∧
    ∀ i, i < audio_files.length →
      ∃ p r, audio_files[i]? = some p ∧
        (transcribe_multiple_files outcome audio_files)[i]? = some r ∧
        resultMatches outcome p r := by
  constructor
  · simp [transcribe_multiple_files]
  · intro i hi
    have hp : audio_files[i]? = some audio_files[i] := List.getElem?_eq_getElem hi
    refine ⟨audio_files[i],
      (match outcome audio_files[i] with
       | .ok v => PyTranscription.success v
       | .error e => PyTranscription.errorRec e audio_files[i]), hp, ?_, ?_⟩
    · simp [transcribe_multiple_files, List.getElem?_map, hp]
    · cases ho : outcome audio_files[i] <;> simp [resultMatches, ho]

/-- C8, witness: the theorem applied at the two-path example whose first
path fails, at index 0. -/
theorem c8_submit_many_witness :
    ∃ p r, exFiles[0]? = some p ∧
      (transcribe_multiple_files exOutcome exFiles)[0]? = some r ∧
      resultMatches exOutcome p r :=
  (c8_submit_many exOutcome exFiles).2 0 (by norm_num [exFiles])

/-! ### Claim C6 -/

/-- C6, counterexample: a task that fails with a raised
FileNotFoundError stores the raw `str(e)` text in its `error` field, not a
structured code/message record, refuting the claim that the raw exception
string is never stored. -/
theorem c6_structured_error_counterexample :
    (finishTask (⟨"processing", none, 1/2, "Đang xử lý", none⟩ : TaskRecord Unit)
        (Except.error "FileNotFoundError: missing.mp4")).error =
      some "FileNotFoundError: missing.mp4" := rfl

/-- C6, amended claim: on a failing task the coordinator stores status
"error", the raw exception string itself in the `error` field, progress 0,
and a description prefixed with the exception text; no structured
code/message record is constructed anywhere on this path. -/
theorem c6_structured_error_amended {α : Type} (r : TaskRecord α) (m : String) :
    (finishTask r (Except.error m)).status = "error" ∧
    (finishTask r (Except.error m)).error = some m ∧
    (finishTask r (Except.error m)).progress = 0 ∧
    (finishTask r (Except.error m)).progress_desc = "Lỗi: " ++ m :=
  ⟨rfl, rfl, rfl, rfl⟩

/-! ### Claim C3 -/

/-- C3, counterexample: with TTL 10, cap 1 and current time 100, a store
whose expired oldest entry also heads the pre-cleanup sorted list keeps
entry 1 even though the claim requires removing it: the cap rule pops keys
taken from the stale sorted list, and the pop of the already-evicted entry
0 is a no-op, leaving the store above the cap. -/
theorem c3_reaper_counterexample :
    claimReaperRemoves cexStore 10 1 100 1 ∧
      1 ∈ (cleanupOnce cexStore 10 1 100).map Prod.fst := by
  constructor
  · right
    constructor
    · norm_num [afterTTL, cexStore, cexEntry0, cexEntry1, cexEntry2, accessTime]
    · norm_num [specCapVictims, afterTTL, cexStore, cexEntry0, cexEntry1, cexEntry2,
        accessTime, pySort, pyInsert, entryLt]
  · norm_num [cleanupOnce, afterTTL, capVictims, sortedResults, cexStore, cexEntry0,
      cexEntry1, cexEntry2, accessTime, pySort, pyInsert, entryLt]

/-- C3, amended claim: one reaper pass removes an entry iff its age since
last access exceeds the TTL, or the entry count remaining after the TTL
removals exceeds the cap and the key of the entry is among the first
(count − cap) keys of the sorted-by-access list computed before any
removal — not among the oldest survivors, so the store can stay above the
cap when expired entries occupy that prefix.  Removal is independent of the
status field of the entry. -/
theorem c3_reaper_amended (store : List (ℕ × TaskEntry)) (ttl : ℚ) (cap : ℕ)
    (now : ℚ) (tid : ℕ) (e : TaskEntry)
    (hnodup : (store.map Prod.fst).Nodup) (hmem : (tid, e) ∈ store) :
    tid ∉ (cleanupOnce store ttl cap now).map Prod.fst ↔
      now - accessTime e > ttl ∨ tid ∈ capVictims store ttl cap now := by
  constructor
  · intro hrem
    by_contra hcon
    push_neg at hcon
    obtain ⟨hexp, hvic⟩ := hcon
    apply hrem
    apply List.mem_map.2
    refine ⟨(tid, e), ?_, rfl⟩
    unfold cleanupOnce
    apply List.mem_filter.2
    refine ⟨?_, ?_⟩
    · unfold afterTTL
      apply List.mem_filter.2
      refine ⟨hmem, ?_⟩
      simp only [Bool.not_eq_true', decide_eq_false_iff_not]
      exact not_lt.2 hexp
    · simp only [Bool.not_eq_true', decide_eq_false_iff_not]
      exact hvic
  · intro hdis hin
    obtain ⟨q, hq, hqid⟩ := List.mem_map.1 hin
    obtain ⟨qid, qe⟩ := q
    have hqid2 : qid = tid := hqid
    subst hqid2
    have hq2 := List.mem_filter.1 hq
    have hq3 := List.mem_filter.1 hq2.1
    have heq : qe = e := keys_nodup_eq store qid qe e hnodup hq3.1 hmem
    subst heq
    rcases hdis with hexp | hvic
    · have hfresh := hq3.2
      simp only [Bool.not_eq_true', decide_eq_false_iff_not] at hfresh
      exact hfresh hexp
    · have hnov := hq2.2
      simp only [Bool.not_eq_true', decide_eq_false_iff_not] at hnov
      exact hnov hvic

/-- C3, witness: the amended removal characterization applied to the
expired entry 0 of the concrete store. -/
theorem c3_reaper_amended_witness :
    0 ∉ (cleanupOnce cexStore 10 1 100).map Prod.fst ↔
      100 - accessTime cexEntry0 > 10 ∨ 0 ∈ capVictims cexStore 10 1 100 :=
  c3_reaper_amended cexStore 10 1 100 0 cexEntry0 (by simp [cexStore])
    (by simp [cexStore])

/-! ### Helper lemmas: progress traces -/

theorem fileStage_chain (K i : ℕ) (hK : 0 < K) (hi : i + 1 ≤ K) (v align : Bool) :
    (fileStageUpdates K i v align).Chain' (· ≤ ·) ∧
    (fileStageUpdates K i v align).head? = some ((i : ℚ) / K) ∧
    (fileStageUpdates K i v align).getLast? = some (((i : ℚ) + 1) / K) := by
  have hKq : (0 : ℚ) < K := by exact_mod_cast hK
  have hw : (0 : ℚ) < 1 / (K : ℚ) := by positivity
  rcases v <;> rcases align
  · refine ⟨?_, rfl, ?_⟩
    · simp only [fileStageUpdates, Bool.false_eq_true, if_false, List.nil_append,
        List.cons_append, List.singleton_append, List.chain'_cons, List.chain'_singleton,
        and_true]
      refine ⟨?_, ?_, ?_⟩ <;> linarith
    · simp only [fileStageUpdates, Bool.false_eq_true, if_false, List.nil_append,
        List.cons_append, List.singleton_append, List.getLast?_cons_cons,
        List.getLast?_singleton, Option.some_inj]
      ring
  · refine ⟨?_, rfl, ?_⟩
    · simp only [fileStageUpdates, Bool.false_eq_true, if_false, if_true, List.nil_append,
        List.cons_append, List.singleton_append, List.chain'_cons, List.chain'_singleton,
        and_true]
      refine ⟨?_, ?_, ?_, ?_⟩ <;> linarith
    · simp only [fileStageUpdates, Bool.false_eq_true, if_false, if_true, List.nil_append,
        List.cons_append, List.singleton_append, List.getLast?_cons_cons,
        List.getLast?_singleton, Option.some_inj]
      ring
  · refine ⟨?_, rfl, ?_⟩
    · simp only [fileStageUpdates, Bool.false_eq_true, if_false, if_true, List.nil_append,
        List.cons_append, List.singleton_append, List.chain'_cons, List.chain'_singleton,
        and_true]
      refine ⟨?_, ?_, ?_, ?_⟩ <;> linarith
    · simp only [fileStageUpdates, Bool.false_eq_true, if_false, if_true, List.nil_append,
        List.cons_append, List.singleton_append, List.getLast?_cons_cons,
        List.getLast?_singleton, Option.some_inj]
      ring
  · refine ⟨?_, rfl, ?_⟩
    · simp only [fileStageUpdates, if_true, List.nil_append,
        List.cons_append, List.singleton_append, List.chain'_cons, List.chain'_singleton,
        and_true]
      refine ⟨?_, ?_, ?_, ?_, ?_⟩ <;> linarith
    · simp only [fileStageUpdates, if_true, List.nil_append,
        List.cons_append, List.singleton_append, List.getLast?_cons_cons,
        List.getLast?_singleton, Option.some_inj]
      ring

theorem filesUpdates_chain :
    ∀ (files : List Bool) (i : ℕ) (align : Bool) (K : ℕ), K = i + files.length →
      (filesUpdates K i files align ++ [1]).Chain' (· ≤ ·) ∧
      ((filesUpdates K i files align ++ [1]).head? = some ((i : ℚ) / K) ∨
        (filesUpdates K i files align ++ [1]).head? = some 1)
  | [], i, align, K, hK => by
    simp [filesUpdates]
  | v :: rest, i, align, K, hK => by
    have hK2 : K = i + (rest.length + 1) := by simpa using hK
    have hK0 : 0 < K := by omega
    have hi : i + 1 ≤ K := by omega
    have hKq : (0 : ℚ) < K := by exact_mod_cast hK0
    have fs := fileStage_chain K i hK0 hi v align
    have ih := filesUpdates_chain rest (i + 1) align K (by omega)
    have hassoc : filesUpdates K i (v :: rest) align ++ [1] =
        fileStageUpdates K i v align ++ (filesUpdates K (i + 1) rest align ++ [1]) := by
      simp [filesUpdates, List.append_assoc]
    constructor
    · rw [hassoc]
      apply List.chain'_append.2
      refine ⟨fs.1, ih.1, ?_⟩
      intro x hx y hy
      rw [fs.2.2] at hx
      simp only [Option.mem_def, Option.some_inj] at hx
      subst hx
      have hle1 : ((i : ℚ) + 1) / K ≤ 1 := by
        rw [div_le_one hKq]
        have hc : ((i : ℚ) + 1) = ((i + 1 : ℕ) : ℚ) := by push_cast; ring
        rw [hc]
        exact_mod_cast hi
      rcases ih.2 with hh | hh <;> rw [hh] at hy <;>
        simp only [Option.mem_def, Option.some_inj] at hy <;> subst hy
      · have hc : ((i : ℚ) + 1) / K = ((i + 1 : ℕ) : ℚ) / K := by push_cast; ring
        exact le_of_eq hc
      · exact hle1
    · left
      rw [hassoc]
      simp [List.head?_append, fs.2.1]

/-! ### Claim C5 -/

/-- C5, counterexample: for a task with one non-video file, the published
progress sequence starts 0.0 (enqueue), 0.01 (dequeue), then drops back to
0.0 when the base fraction 0/1 of the first file is written, so progress is not
monotonically non-decreasing. -/
theorem c5_progress_monotone_counterexample :
    ¬ (taskProgressTrace [false] false).Chain' (· ≤ ·) := by
  intro h
  have h2 := (List.chain'_cons.1 (h.tail)).1
  norm_num [taskProgressTrace, filesUpdates, fileStageUpdates] at h2

/-- C5, amended claim: within one task the published progress values are
non-decreasing from the first per-file update onward, and a successful run
ends at exactly 1.0; the two decreases the code does perform are the step
from the initial 0.01 marker down to the base fraction 0 of the first file, and
the reset to 0.0 written by the error handler on failure. -/
theorem c5_progress_monotone_amended (files : List Bool) (align : Bool) :
    ((taskProgressTrace files align).drop 2).Chain' (· ≤ ·) ∧
    (taskProgressTrace files align).getLast? = some 1 ∧
    ∀ n, (taskFailureTrace files align n).getLast? = some 0 := by
  have h := filesUpdates_chain files 0 align files.length (by omega)
  refine ⟨?_, ?_, ?_⟩
  · simpa [taskProgressTrace] using h.1
  · have he : taskProgressTrace files align =
        (0 :: 1/100 :: filesUpdates files.length 0 files align) ++ [1] := by
      simp [taskProgressTrace]
    rw [he, List.getLast?_concat]
  · intro n
    rw [taskFailureTrace, List.getLast?_concat]

/-! ### Claim C4 -/

/-- C4, counterexample: when the schema-constrained call succeeds and its
raw text parses directly as the JSON array `[]`, `segment_video` returns
the validated empty list immediately — it neither falls back nor returns a
non-empty segmentation.  The same happens when every directly-parsed
element fails validation. -/
theorem c4_segment_video_counterexample :
    segment_video (Except.ok ⟨some (.jarr []), none, none⟩)
      (Except.error "timeout") (fun s => s) [] = [] := rfl

/-- C4, amended claim: `segment_video` never propagates a generation-call
failure: when both the schema-constrained call and the schema-free retry
raise, it returns the deterministic default segmentation, which always has
exactly 5 segments.  However, when the structured response parses directly
as a JSON array, the validated array is returned with no emptiness check,
so the result can be empty (see the counterexample). -/
theorem c4_segment_video_amended (e1 e2 : String) (tr : String → String)
    (times : List ℚ) :
    segment_video (Except.error e1) (Except.error e2) tr times =
      create_default_segments times ∧
    (create_default_segments times).length = 5 := by
  constructor
  · rfl
  · rfl

/-! ### Helper lemmas: the default segmentation total -/

theorem defaultTotal_is_max (times : List ℚ) (h : times ≠ []) :
    defaultTotalDuration times ∈ times ∧ ∀ t ∈ times, t ≤ defaultTotalDuration times := by
  have hdne : times.dedup ≠ [] := by
    intro h0
    exact h ((List.dedup_eq_nil times).1 h0)
  have hperm := pySort_perm (fun a b => decide (a < b)) times.dedup
  have hsne : pySort (fun a b => decide (a < b)) times.dedup ≠ [] := by
    intro h0
    rw [h0] at hperm
    exact hdne (List.Perm.nil_eq hperm).symm
  cases hlast : (pySort (fun a b => decide (a < b)) times.dedup).getLast? with
  | none => exact absurd (List.getLast?_eq_none_iff.1 hlast) hsne
  | some m =>
    have hds : defaultTotalDuration times = m := by
      rw [defaultTotalDuration, hlast]
      rfl
    have hmem : m ∈ pySort (fun a b => decide (a < b)) times.dedup :=
      List.mem_of_mem_getLast? (by rw [hlast]; rfl)
    constructor
    · rw [hds]
      exact List.mem_dedup.1 (hperm.mem_iff.1 hmem)
    · intro t ht
      rw [hds]
      exact chain_le_getLast _ m t (pySort_le_chain times.dedup) hlast
        (hperm.mem_iff.2 (List.mem_dedup.2 ht))

/-! ### Claim C9 -/

/-- C9: with no parseable timestamp in the subtitle text the deterministic
fallback returns exactly five 60-second segments partitioning the default
range 0–300; and when timestamps are present, the detected total duration
is the largest timestamp found. -/
theorem c9_default_segments (times : List ℚ) (hne : times ≠ []) :
    ((create_default_segments []).map (fun s => (s.start, s.stop)) =
      [(0, 60), (60, 120), (120, 180), (180, 240), (240, 300)]) ∧
    (defaultTotalDuration times ∈ times ∧
      ∀ t ∈ times, t ≤ defaultTotalDuration times) := by
  constructor
  · have htot : defaultTotalDuration [] = 300 := rfl
    have hr : List.range 5 = [0, 1, 2, 3, 4] := rfl
    have r0 : round1 0 = 0 := by
      have := round1_intCast 0
      norm_num at this
      simpa using this
    have r60 : round1 60 = 60 := by
      have := round1_intCast 60
      norm_num at this
      simpa using this
    have r120 : round1 120 = 120 := by
      have := round1_intCast 120
      norm_num at this
      simpa using this
    have r180 : round1 180 = 180 := by
      have := round1_intCast 180
      norm_num at this
      simpa using this
    have r240 : round1 240 = 240 := by
      have := round1_intCast 240
      norm_num at this
      simpa using this
    have r300 : round1 300 = 300 := by
      have := round1_intCast 300
      norm_num at this
      simpa using this
    simp only [create_default_segments, htot, hr, List.map_cons, List.map_nil]
    norm_num [r0, r60, r120, r180, r240, r300]
  · exact defaultTotal_is_max times hne

/-- C9, witness: the theorem applied at the concrete timestamp list
[2, 1], whose detected total duration is 2. -/
theorem c9_default_segments_witness :
    ((create_default_segments []).map (fun s => (s.start, s.stop)) =
      [(0, 60), (60, 120), (120, 180), (180, 240), (240, 300)]) ∧
    (defaultTotalDuration [2, 1] ∈ ([2, 1] : List ℚ) ∧
      ∀ t ∈ ([2, 1] : List ℚ), t ≤ defaultTotalDuration [2, 1]) :=
  c9_default_segments [2, 1] (by simp)

/-! ### Helper lemmas: the merge walk -/

theorem mergeWalk_spec :
    ∀ (l : List ESeg) (cur : ESeg), cur.start ≤ cur.stop →
      (∀ s ∈ l, s.start ≤ s.stop) →
      (mergeWalk cur l).Pairwise (fun a b => a.stop + 3 < b.start) ∧
      ∀ r ∈ mergeWalk cur l, cur.start ≤ r.start ∧ r.start ≤ r.stop
  | [], cur, hc, _ => by
    constructor
    · simp [mergeWalk]
    · intro r hr
      simp only [mergeWalk, List.mem_singleton] at hr
      subst hr
      exact ⟨le_refl _, hc⟩
  | s :: rest, cur, hc, hall => by
    have hs := hall s (List.mem_cons_self s rest)
    have hrest : ∀ x ∈ rest, x.start ≤ x.stop :=
      fun x hx => hall x (List.mem_cons_of_mem s hx)
    by_cases hmerge : s.start ≤ cur.stop + 3
    · have hm : (mergeInto cur s).start ≤ (mergeInto cur s).stop := by
        show cur.start ≤ max cur.stop s.stop
        exact le_trans hc (le_max_left _ _)
      have ih := mergeWalk_spec rest (mergeInto cur s) hm hrest
      simp only [mergeWalk, if_pos hmerge]
      refine ⟨ih.1, ?_⟩
      intro r hr
      exact ⟨(ih.2 r hr).1, (ih.2 r hr).2⟩
    · have hlt : cur.stop + 3 < s.start := lt_of_not_le hmerge
      have ih := mergeWalk_spec rest s hs hrest
      simp only [mergeWalk, if_neg hmerge]
      constructor
      · refine List.pairwise_cons.2 ⟨?_, ih.1⟩
        intro r hr
        have hr2 := ih.2 r hr
        linarith [hr2.1]
      · intro r hr
        rcases List.mem_cons.1 hr with rfl | hr2
        · exact ⟨le_refl _, hc⟩
        · have h3 := ih.2 r hr2
          exact ⟨by linarith [h3.1], h3.2⟩

theorem mergeWalk_forall (P : ESeg → Prop)
    (hP : ∀ a b, P a → P b → P (mergeInto a b)) :
    ∀ (l : List ESeg) (cur : ESeg), P cur → (∀ s ∈ l, P s) →
      ∀ r ∈ mergeWalk cur l, P r
  | [], cur, hc, _, r, hr => by
    simp only [mergeWalk, List.mem_singleton] at hr
    exact hr ▸ hc
  | s :: rest, cur, hc, hall, r, hr => by
    by_cases hm : s.start ≤ cur.stop + 3
    · simp only [mergeWalk, if_pos hm] at hr
      exact mergeWalk_forall P hP rest (mergeInto cur s)
        (hP _ _ hc (hall s (List.mem_cons_self s rest)))
        (fun x hx => hall x (List.mem_cons_of_mem s hx)) r hr
    · simp only [mergeWalk, if_neg hm] at hr
      rcases List.mem_cons.1 hr with rfl | hr2
      · exact hc
      · exact mergeWalk_forall P hP rest s (hall s (List.mem_cons_self s rest))
          (fun x hx => hall x (List.mem_cons_of_mem s hx)) r hr2

theorem mergeInto_scores (a b : ESeg)
    (ha : 5 ≤ a.relevance_score ∧
      a.composite_score ≤ (6/10) * a.relevance_score + (4/10) * a.engagement_score)
    (hb : 5 ≤ b.relevance_score ∧
      b.composite_score ≤ (6/10) * b.relevance_score + (4/10) * b.engagement_score) :
    5 ≤ (mergeInto a b).relevance_score ∧
      (mergeInto a b).composite_score ≤
        (6/10) * (mergeInto a b).relevance_score +
          (4/10) * (mergeInto a b).engagement_score := by
  constructor
  · show 5 ≤ max a.relevance_score b.relevance_score
    exact le_trans ha.1 (le_max_left _ _)
  · show max a.composite_score b.composite_score ≤
      (6/10) * max a.relevance_score b.relevance_score +
        (4/10) * max a.engagement_score b.engagement_score
    apply max_le
    · have h1 := le_max_left a.relevance_score b.relevance_score
      have h2 := le_max_left a.engagement_score b.engagement_score
      linarith [ha.2]
    · have h1 := le_max_right a.relevance_score b.relevance_score
      have h2 := le_max_right a.engagement_score b.engagement_score
      linarith [hb.2]

theorem extendOne_scores (m : Option ℚ) (s y : ESeg) (h : extendOne m s = some y) :
    y.relevance_score = s.relevance_score ∧
      y.engagement_score = s.engagement_score ∧
      y.composite_score = s.composite_score := by
  unfold extendOne at h
  dsimp only at h
  split_ifs at h with h1 h2
  all_goals
    first
      | (simp only [Option.some_inj] at h
         subst h
         exact ⟨rfl, rfl, rfl⟩)
      | simp at h

theorem buildOne_scores (d : SegData) (x : ESeg) (h : buildOne d = some (some x)) :
    5 ≤ x.relevance_score ∧
      x.composite_score ≤ (6/10) * x.relevance_score + (4/10) * x.engagement_score := by
  unfold buildOne at h
  cases hrel : d.relevance_score with
  | none => rw [hrel] at h; simp at h
  | some ro =>
    rw [hrel] at h
    cases ro with
    | none => simp at h
    | some r =>
      dsimp only at h
      split_ifs at h with h1 h2
      all_goals try exact Option.noConfusion (Option.some.inj h)
      split at h
      all_goals try exact Option.noConfusion h
      all_goals try dsimp only at h
      all_goals split at h
      all_goals try exact Option.noConfusion h
      all_goals try dsimp only at h
      all_goals try split at h
      all_goals try exact Option.noConfusion h
      all_goals (
        have hx : _ = x := Option.some.inj (Option.some.inj h)
        subst hx
        refine ⟨?_, ?_⟩
        · exact not_lt.1 h2
        · dsimp only
          exact le_of_eq (by ring))

theorem buildEnhanced_scores :
    ∀ (l : List SegData) (l2 : List ESeg), buildEnhanced l = some l2 →
      ∀ e ∈ l2, 5 ≤ e.relevance_score ∧
        e.composite_score ≤ (6/10) * e.relevance_score + (4/10) * e.engagement_score
  | [], l2, h, e, he => by
    simp only [buildEnhanced, Option.some_inj] at h
    rw [← h] at he
    simp at he
  | d :: rest, l2, h, e, he => by
    simp only [buildEnhanced] at h
    cases hb : buildOne d with
    | none => rw [hb] at h; simp at h
    | some o =>
      rw [hb] at h
      cases o with
      | none => exact buildEnhanced_scores rest l2 h e he
      | some y =>
        cases hr : buildEnhanced rest with
        | none => rw [hr] at h; simp at h
        | some tl =>
          rw [hr] at h
          simp only [Option.map, Option.some_inj] at h
          rw [← h] at he
          rcases List.mem_cons.1 he with rfl | he2
          · exact buildOne_scores d e hb
          · exact buildEnhanced_scores rest tl hr e he2

/-- Evaluation of the enhanced path at the two concrete overlapping
candidates: they merge into a single segment whose scores come from the
per-field maxima. -/
theorem find_enhanced_example_eval :
    find_relevant_segments_with_enhanced_llm (Except.ok (some [cexC10a, cexC10b])) [] =
      [mergeInto cexE10a cexE10b] := by
  have hb1 : buildOne cexC10a = some (some cexE10a) := by
    norm_num [buildOne, cexC10a, cexE10a, ESeg.mk.injEq]
  have hb2 : buildOne cexC10b = some (some cexE10b) := by
    norm_num [buildOne, cexC10b, cexE10b, ESeg.mk.injEq]
  have hbe : buildEnhanced [cexC10a, cexC10b] = some [cexE10a, cexE10b] := by
    simp [buildEnhanced, hb1, hb2]
  have h1 : eSegLt cexE10b cexE10a = false := by
    norm_num [eSegLt, cexE10a, cexE10b]
  have hsort : pySort eSegLt [cexE10a, cexE10b] = [cexE10a, cexE10b] := by
    simp [pySort, pyInsert, h1]
  have hcond : cexE10b.start ≤ cexE10a.stop + 3 := by norm_num [cexE10a, cexE10b]
  have hphase : mergePhase [cexE10a, cexE10b] = [mergeInto cexE10a cexE10b] := by
    simp only [mergePhase, hsort, mergeWalk, if_pos hcond]
  have hmst : (mergeInto cexE10a cexE10b).start = 0 := rfl
  have hmsp : (mergeInto cexE10a cexE10b).stop = 30 := by
    show max cexE10a.stop cexE10b.stop = 30
    norm_num [cexE10a, cexE10b]
  have hext1 : extendOne (maxEndOf []) (mergeInto cexE10a cexE10b) =
      some (mergeInto cexE10a cexE10b) := by
    unfold extendOne
    rw [hmst, hmsp]
    norm_num
  have hma : merge_and_extend_enhanced_segments [cexE10a, cexE10b] [] =
      some [mergeInto cexE10a cexE10b] := by
    simp [merge_and_extend_enhanced_segments, List.isEmpty_cons, hphase,
      extendAll, hext1, pySort, pyInsert]
  simp [find_relevant_segments_with_enhanced_llm, List.isEmpty_cons, hbe, hma]

/-! ### Claim C10 -/

/-- C10, counterexample: two kept candidates with (relevance, engagement)
scores (10, 5) and (5, 10) merge into one returned segment whose
relevance and engagement maxima are 10 and 10 but whose composite score is
the maximum 8 of the two candidate composites, not
0.6 · 10 + 0.4 · 10 = 10 — so a returned segment need not satisfy the
claimed composite equation. -/
theorem c10_enhanced_scores_counterexample :
    ∃ r, find_relevant_segments_with_enhanced_llm
        (Except.ok (some [cexC10a, cexC10b])) [] = [r] ∧
      r.relevance_score = 10 ∧ r.engagement_score = 10 ∧ r.composite_score = 8 ∧
      r.composite_score ≠ (6/10) * r.relevance_score + (4/10) * r.engagement_score := by
  refine ⟨mergeInto cexE10a cexE10b, find_enhanced_example_eval, ?_, ?_, ?_, ?_⟩
  · show max cexE10a.relevance_score cexE10b.relevance_score = 10
    norm_num [cexE10a, cexE10b]
  · show max cexE10a.engagement_score cexE10b.engagement_score = 10
    norm_num [cexE10a, cexE10b]
  · show max cexE10a.composite_score cexE10b.composite_score = 8
    norm_num [cexE10a, cexE10b]
  · show max cexE10a.composite_score cexE10b.composite_score ≠
      (6/10) * max cexE10a.relevance_score cexE10b.relevance_score +
        (4/10) * max cexE10a.engagement_score cexE10b.engagement_score
    norm_num [cexE10a, cexE10b]

/-- C10, amended claim: every segment the enhanced path returns carries a
numeric relevance score of at least 5 (candidates with a missing,
unconvertible, out-of-range or below-5 relevance score are discarded), and
its composite score is at most 0.6 times its relevance score plus 0.4 times
its engagement score, with equality for unmerged segments; merging keeps
the maximum of each score field separately, which can push the composite
strictly below the claimed weighted combination. -/
theorem c10_enhanced_scores_amended (call : Except String (Option (List SegData)))
    (sentences : List SentSeg) (r : ESeg)
    (hr : r ∈ find_relevant_segments_with_enhanced_llm call sentences) :
    5 ≤ r.relevance_score ∧
      r.composite_score ≤ (6/10) * r.relevance_score + (4/10) * r.engagement_score := by
  unfold find_relevant_segments_with_enhanced_llm at hr
  cases call with
  | error e => simp at hr
  | ok o =>
    cases o with
    | none => simp at hr
    | some segs =>
      dsimp only at hr
      by_cases hemp : segs.isEmpty
      · rw [if_pos hemp] at hr
        simp at hr
      · rw [if_neg hemp] at hr
        cases hbe : buildEnhanced segs with
        | none => rw [hbe] at hr; simp at hr
        | some enh =>
          rw [hbe] at hr
          dsimp only at hr
          cases hma : merge_and_extend_enhanced_segments enh sentences with
          | none => rw [hma] at hr; simp at hr
          | some merged =>
            rw [hma] at hr
            dsimp only at hr
            have henh := buildEnhanced_scores segs enh hbe
            unfold merge_and_extend_enhanced_segments at hma
            by_cases hemp2 : enh.isEmpty
            · rw [if_pos hemp2] at hma
              simp only [Option.some_inj] at hma
              subst hma
              simp at hr
            · rw [if_neg hemp2] at hma
              cases hext : extendAll (maxEndOf sentences) (mergePhase enh) with
              | none => rw [hext] at hma; simp at hma
              | some ext =>
                rw [hext] at hma
                simp only [Option.some_inj] at hma
                subst hma
                have hr2 : r ∈ ext := (pySort_mem _ ext r).1 hr
                obtain ⟨x, hx, hxe⟩ := extendAll_mem _ _ ext hext r hr2
                have hxP : 5 ≤ x.relevance_score ∧
                    x.composite_score ≤
                      (6/10) * x.relevance_score + (4/10) * x.engagement_score := by
                  unfold mergePhase at hx
                  cases hs : pySort eSegLt enh with
                  | nil => rw [hs] at hx; simp at hx
                  | cons hd tl =>
                    rw [hs] at hx
                    have hsme : ∀ z ∈ hd :: tl, 5 ≤ z.relevance_score ∧
                        z.composite_score ≤
                          (6/10) * z.relevance_score + (4/10) * z.engagement_score := by
                      intro z hz
                      apply henh
                      have hz2 : z ∈ pySort eSegLt enh := by rw [hs]; exact hz
                      exact (pySort_mem eSegLt enh z).1 hz2
                    exact mergeWalk_forall _ mergeInto_scores tl hd
                      (hsme hd (List.mem_cons_self hd tl))
                      (fun z hz => hsme z (List.mem_cons_of_mem hd hz)) x hx
                obtain ⟨he1, he2, he3⟩ := extendOne_scores _ x r hxe
                constructor
                · rw [he1]
                  exact hxP.1
                · rw [he1, he2, he3]
                  exact hxP.2

/-- C10, witness: the amended score bounds applied to the concrete merged
segment returned for the two example candidates. -/
theorem c10_enhanced_scores_witness :
    mergeInto cexE10a cexE10b ∈
      find_relevant_segments_with_enhanced_llm (Except.ok (some [cexC10a, cexC10b])) [] ∧
    (5 ≤ (mergeInto cexE10a cexE10b).relevance_score ∧
      (mergeInto cexE10a cexE10b).composite_score ≤
        (6/10) * (mergeInto cexE10a cexE10b).relevance_score +
          (4/10) * (mergeInto cexE10a cexE10b).engagement_score) :=
  ⟨by rw [find_enhanced_example_eval]; exact List.mem_singleton.2 rfl,
    c10_enhanced_scores_amended (Except.ok (some [cexC10a, cexC10b])) [] _
      (by rw [find_enhanced_example_eval]; exact List.mem_singleton.2 rfl)⟩

/-! ### Claim C1 -/

/-- C1, counterexample: merging the candidates [100, 110] (composite 9) and
[0, 10] (composite 8) walks the composite-sorted list, absorbs the
earlier-starting segment into the accumulator without ever lowering the
accumulator start, and then extends the short result to [95, 120]; the
time point 5 lies in an input segment but in no output segment, so the
output does not cover the input time mass (and the claim fails). -/
theorem c1_merge_counterexample :
    ∃ out, merge_and_extend_enhanced_segments [cexC1a, cexC1b] [] = some out ∧
      (∃ s ∈ [cexC1a, cexC1b], s.start ≤ 5 ∧ (5 : ℚ) ≤ s.stop) ∧
      ∀ r ∈ out, ¬ (r.start ≤ 5 ∧ (5 : ℚ) ≤ r.stop) := by
  have h1 : eSegLt cexC1b cexC1a = false := by
    norm_num [eSegLt, cexC1a, cexC1b, mkESeg]
  have hsort : pySort eSegLt [cexC1a, cexC1b] = [cexC1a, cexC1b] := by
    simp [pySort, pyInsert, h1]
  have hcond : cexC1b.start ≤ cexC1a.stop + 3 := by norm_num [cexC1a, cexC1b, mkESeg]
  have hphase : mergePhase [cexC1a, cexC1b] = [mergeInto cexC1a cexC1b] := by
    simp only [mergePhase, hsort, mergeWalk, if_pos hcond]
  have hmst : (mergeInto cexC1a cexC1b).start = 100 := rfl
  have hmsp : (mergeInto cexC1a cexC1b).stop = 110 := by
    show max cexC1a.stop cexC1b.stop = 110
    rw [show cexC1a.stop = (110 : ℚ) from rfl, show cexC1b.stop = (10 : ℚ) from rfl,
      max_eq_left (by norm_num : (10 : ℚ) ≤ 110)]
  have hmax : maxEndOf ([] : List SentSeg) = none := rfl
  have hext1 : ∃ y, extendOne (maxEndOf []) (mergeInto cexC1a cexC1b) = some y ∧
      y.start = 95 ∧ y.stop = 120 := by
    unfold extendOne
    rw [hmax, hmst, hmsp]
    norm_num
  obtain ⟨y, hy, hys, hyp⟩ := hext1
  have hma : merge_and_extend_enhanced_segments [cexC1a, cexC1b] [] = some [y] := by
    simp [merge_and_extend_enhanced_segments, hphase, extendAll, hy, pySort, pyInsert]
  refine ⟨[y], hma, ⟨cexC1b, by simp, by norm_num [cexC1b, mkESeg]⟩, ?_⟩
  intro r hr
  simp only [List.mem_singleton] at hr
  subst hr
  intro hcontra
  rw [hys] at hcontra
  norm_num at hcontra

/-- C1, amended claim: after the merge walk (and before the short-segment
extension) the segments are pairwise separated by more than the 3-second
gap tolerance, hence pairwise non-overlapping, provided every candidate
has start at most end; the subsequent extension of sub-20-second segments
can reintroduce overlaps, and the walk can drop input time mass because an
absorbed segment never lowers the accumulator start (see the
counterexample). -/
theorem c1_merge_nonoverlap_amended (segs : List ESeg)
    (h : ∀ s ∈ segs, s.start ≤ s.stop) :
    (mergePhase segs).Pairwise (fun a b => a.stop + 3 < b.start) := by
  unfold mergePhase
  cases hs : pySort eSegLt segs with
  | nil => simp
  | cons hd tl =>
    have hmem : ∀ x ∈ hd :: tl, x.start ≤ x.stop := by
      intro x hx
      apply h
      have hx2 : x ∈ pySort eSegLt segs := by rw [hs]; exact hx
      exact (pySort_mem eSegLt segs x).1 hx2
    exact (mergeWalk_spec tl hd (hmem hd (List.mem_cons_self hd tl))
      (fun x hx => hmem x (List.mem_cons_of_mem hd hx))).1

/-- C1, witness: the amended non-overlap guarantee applied to two concrete
candidates [0, 10] and [14, 40]. -/
theorem c1_merge_nonoverlap_witness :
    (∀ s ∈ [cexC1c, cexC1d], s.start ≤ s.stop) ∧
      (mergePhase [cexC1c, cexC1d]).Pairwise (fun a b => a.stop + 3 < b.start) :=
  ⟨by norm_num [cexC1c, cexC1d, mkESeg],
    c1_merge_nonoverlap_amended [cexC1c, cexC1d] (by norm_num [cexC1c, cexC1d, mkESeg])⟩
